import Mathlib

/-!
Verification of the mask raster engine of the Annotator repository
(src/App.tsx, src/components/CanvasEditor.tsx).

The TypeScript source is shallowly embedded below: each definition mirrors
one function (or one branch) of the source.  Images are total functions from
integer pixel coordinates to RGBA samples; the 2D-canvas Porter-Duff
compositing operators are embedded in the binary-alpha fragment, where the
browser's premultiplied integer arithmetic is exact.  Theorems that depend
on compositing therefore carry explicit "binary alpha" hypotheses, matching
the spec's own invariant that mask pixels are either fully opaque or fully
transparent.
-/

set_option maxHeartbeats 1000000

/-- One RGBA sample, channels in 0..255 as stored in a canvas `ImageData`. -/
structure RGBA where
  r : Nat
  g : Nat
  b : Nat
  a : Nat
deriving DecidableEq, Repr

/-- A fully transparent pixel, the initial content of every canvas. -/
def clearPx : RGBA := ⟨0, 0, 0, 0⟩

/-- Opaque white, the value every mask-producing tool writes (`#FFFFFF`). -/
def whitePx : RGBA := ⟨255, 255, 255, 255⟩

/-- Opaque black, the background of the `training_mask` export. -/
def blackPx : RGBA := ⟨0, 0, 0, 255⟩

/-- An image: RGBA sample at each integer pixel coordinate (row-major
`ImageData` indexed by x and y).  Width and height are carried separately
by the operations that need them. -/
abbrev Img : Type := Nat → Nat → RGBA

/-- The all-transparent image: a freshly created canvas. -/
def blankImg : Img := fun _ _ => clearPx

/-- `a pixel is binary` : its alpha is 0 or 255.  The canvas compositing
embeddings below are exact precisely on this fragment. -/
def binAlpha (c : RGBA) : Prop := c.a = 0 ∨ c.a = 255

/-- Porter-Duff `source-over` (the canvas default `drawImage` compositing),
restricted to the binary-alpha fragment where it is exact: a fully
transparent source leaves the destination, any other source replaces it
(exact when the source alpha is 255, or when the destination is blank). -/
def over (s d : RGBA) : RGBA := if s.a = 0 then d else s

/-- Porter-Duff `destination-in` (canvas `globalCompositeOperation =
'destination-in'`), restricted to the binary-alpha fragment: the
destination is kept where the source has alpha, cleared elsewhere. -/
def destIn (s d : RGBA) : RGBA := if s.a = 0 then clearPx else d

/-- Embeds the recurring source pattern "draw a mask into a scratch canvas,
then `source-in`-fill it with an opaque color": the result carries the fill
color with the mask's alpha (a zero-alpha mask pixel stays fully clear,
as premultiplied canvas storage forces). -/
def tint (c : RGBA) (m : RGBA) : RGBA :=
  if m.a = 0 then clearPx else ⟨c.r, c.g, c.b, m.a⟩

/-- Layer metadata, from `SegmentationLayer` in src/types. -/
structure Layer where
  id : String
  name : String
  color : RGBA
  isVisible : Bool
  isLocked : Bool
deriving DecidableEq, Repr

/-- The per-layer offscreen mask canvases: `maskCanvasesRef` in
CanvasEditor, a map from layer id to bitmap (absent = no canvas yet). -/
abbrev MaskMap : Type := String → Option Img

/-- Whether the mask stored for `id` covers pixel `(x, y)` (nonzero alpha);
a missing canvas covers nothing. -/
def coversAt (masks : MaskMap) (id : String) (x y : Nat) : Bool :=
  match masks id with
  | some m => decide ((m x y).a ≠ 0)
  | none => false

/-- One step of `getCompositeMask`: draw a visible layer's mask canvas
(when one exists) over the accumulated composite. -/
def unionStep (masks : MaskMap) (acc : Img) (layer : Layer) : Img :=
  if layer.isVisible then
    match masks layer.id with
    | some m => fun x y => over (m x y) (acc x y)
    | none => acc
  else acc

/-- `getCompositeMask` from `processExport`: draw every visible layer's
mask, in registry order, onto a blank canvas with default source-over
compositing. -/
def getCompositeMask (layers : List Layer) (masks : MaskMap) : Img :=
  layers.foldl (unionStep masks) blankImg

/-- Whether any visible layer's mask covers `(x, y)` — the "union mask"
of the spec. -/
def coveredB (layers : List Layer) (masks : MaskMap) (x y : Nat) : Bool :=
  layers.any fun l => l.isVisible && coversAt masks l.id x y

/-- `processExport`, `white_bg` branch: fill the export canvas white,
cut the source image by the composite mask (`destination-in`), and draw
the cut-out over the white fill. -/
def exportWhiteBg (layers : List Layer) (masks : MaskMap) (img : Img) : Img :=
  fun x y => over (destIn (getCompositeMask layers masks x y) (img x y)) whitePx

/-- `processExport`, `rgba` branch: draw the source image, then
`destination-in` the composite mask. -/
def exportRgba (layers : List Layer) (masks : MaskMap) (img : Img) : Img :=
  fun x y => destIn (getCompositeMask layers masks x y) (img x y)

/-- `processExport`, `instance` branch: draw the source image; build a
composite from the active layer's mask canvas, intersected
(`destination-in`) with the canvas stored under id `"fg"` when the active
layer id is not `"fg"` and such a canvas exists in the map; then
`destination-in` that composite into the image.  Note the `"fg"` lookup
is against the mask-canvas map, not the layer registry. -/
def exportInstance (activeId : String) (masks : MaskMap) (img : Img) : Img :=
  let composite : Img :=
    match masks activeId with
    | none => blankImg
    | some am =>
      if activeId ≠ "fg" then
        match masks "fg" with
        | some fgm => fun x y => destIn (fgm x y) (am x y)
        | none => am
      else am
  fun x y => destIn (composite x y) (img x y)

/-- The `instance` export as claim C1 words it: source masked by the
active layer's mask, further intersected by the `"fg"` layer's mask when
the active layer is not `"fg"` itself; when no `"fg"` layer exists in the
Layer Registry, only the active layer's mask applies. -/
def specInstanceExport (layers : List Layer) (activeId : String)
    (masks : MaskMap) (img : Img) : Img :=
  fun x y =>
    if coversAt masks activeId x y = true ∧
        (activeId = "fg" ∨ (layers.any fun l => l.id = "fg") = false ∨
          coversAt masks "fg" x y = true)
    then img x y else clearPx

/-- One step of the `training_mask` paint loop: paint the mask of the
layer at (0-based) registry index `p.1`, if visible, with the opaque
grayscale color `rgb(id,id,id)` where `id = p.1 + 1`, over the
accumulated canvas. -/
def paintStep (masks : MaskMap) (acc : Img) (p : Nat × Layer) : Img :=
  if p.2.isVisible then
    match masks p.2.id with
    | some m => fun x y => over (tint ⟨p.1 + 1, p.1 + 1, p.1 + 1, 255⟩ (m x y)) (acc x y)
    | none => acc
  else acc

/-- `processExport`, `training_mask` branch: black canvas; per visible
layer in registry order paint its mask with `rgb(id,id,id)`; then
`destination-in` the source image (alpha intersection); finally flatten
onto a black canvas so holes become opaque black. -/
def exportTrainingMask (layers : List Layer) (masks : MaskMap) (img : Img) : Img :=
  let painted : Img := layers.enum.foldl (paintStep masks) (fun _ _ => blackPx)
  fun x y => over (destIn (img x y) (painted x y)) blackPx

/-- The label the `training_mask` paint loop leaves at `(x, y)` given the
enumerated layer list: the 1-based index of the last visible covering
layer, or `acc` when none covers. -/
def lastLabelAux (masks : MaskMap) (x y : Nat) (pairs : List (Nat × Layer))
    (acc : Nat) : Nat :=
  pairs.foldl
    (fun a p => if p.2.isVisible && coversAt masks p.2.id x y then p.1 + 1 else a)
    acc

/-- The training label of pixel `(x, y)`: 1-based registry index of the
last visible layer whose mask covers it, 0 (background) otherwise. -/
def trainLabel (layers : List Layer) (masks : MaskMap) (x y : Nat) : Nat :=
  lastLabelAux masks x y layers.enum 0

/-! ### App-level state: Layer Registry, history, mask snapshots -/

/-- `MaskState` from src/types: the serialized per-layer mask snapshot
(`Record<string, string>`, layer id → PNG data URL).  The spec requires the
serialization to round-trip losslessly, so a serialized mask is identified
with the bitmap it encodes; `none` stands for an id with no entry (the
empty-string sentinel of `captureSnapshot` is restored identically to a
missing entry: both leave the canvas cleared). -/
abbrev MaskState : Type := String → Option Img

/-- A history entry (`HistoryItem` in App.tsx): layer registry plus the
full serialized mask store. -/
structure HistoryItem where
  layers : List Layer
  masks : MaskState

/-- The App component's state relevant to the claims: the Layer Registry,
the active layer id, both history stacks, and `currentMasksRef` (the
serialized masks of the current live state). -/
@[ext] structure AppState where
  layers : List Layer
  activeLayerId : String
  past : List HistoryItem
  future : List HistoryItem
  masks : MaskState

/-- The pixel content the CanvasEditor restore effect produces from a
`MaskState`: every canvas is cleared, then each stored entry is decoded and
drawn onto its (blank) canvas, so a layer id holds exactly the stored
bitmap, or a blank canvas when no data was stored for it. -/
def restoredPixels (ms : MaskState) : String → Img :=
  fun id => match ms id with
  | some m => m
  | none => blankImg

/-- `pushToHistory` in App.tsx: append the given (pre-action) state to
`past` and clear `future`. -/
def pushToHistory (s : AppState) (priorLayers : List Layer)
    (priorMasks : MaskState) : AppState :=
  { s with past := s.past ++ [⟨priorLayers, priorMasks⟩], future := [] }

/-- `handleSnapshot` in App.tsx: fired when CanvasEditor completes a
stroke / polygon commit / flood fill; pushes the pre-action state (current
registry + `currentMasksRef`) to history, then adopts the new masks. -/
def handleSnapshot (s : AppState) (newMasks : MaskState) : AppState :=
  { pushToHistory s s.layers s.masks with masks := newMasks }

/-- The active-layer fallback used by undo/redo: keep the current id when
the restored registry still contains it, otherwise `layers[0]?.id || 'fg'`
(the JS `||` falls through to `"fg"` on a missing first layer or an empty
id string). -/
def restoreActive (restored : List Layer) (activeId : String) : String :=
  if (restored.find? fun l => l.id = activeId).isSome then activeId
  else
    match restored.head? with
    | some l0 => if l0.id = "" then "fg" else l0.id
    | none => "fg"

/-- `handleUndo` in App.tsx. -/
def handleUndo (s : AppState) : AppState :=
  match s.past.getLast? with
  | none => s
  | some prev =>
    { layers := prev.layers
      activeLayerId := restoreActive prev.layers s.activeLayerId
      past := s.past.dropLast
      future := ⟨s.layers, s.masks⟩ :: s.future
      masks := prev.masks }

/-- `handleRedo` in App.tsx. -/
def handleRedo (s : AppState) : AppState :=
  match s.future with
  | [] => s
  | next :: rest =>
    { layers := next.layers
      activeLayerId := restoreActive next.layers s.activeLayerId
      past := s.past ++ [⟨s.layers, s.masks⟩]
      future := rest
      masks := next.masks }

/-- `PREDEFINED_COLORS` from src/types, hex parsed to RGBA. -/
def PREDEFINED_COLORS : List RGBA :=
  [⟨239, 68, 68, 255⟩, ⟨34, 197, 94, 255⟩, ⟨59, 130, 246, 255⟩,
   ⟨234, 179, 8, 255⟩, ⟨168, 85, 247, 255⟩, ⟨236, 72, 153, 255⟩,
   ⟨6, 182, 212, 255⟩, ⟨249, 115, 22, 255⟩]

/-- `addLayer` in App.tsx; `newId` stands for the generated
`inst-${Date.now()}` string. -/
def addLayer (s : AppState) (newId : String) (name : String) : AppState :=
  let s1 := pushToHistory s s.layers s.masks
  { s1 with
    layers := s1.layers ++
      [⟨newId, name,
        (PREDEFINED_COLORS.getD (s.layers.length % PREDEFINED_COLORS.length) clearPx),
        true, false⟩]
    activeLayerId := newId }

/-- `updateLayer` in App.tsx, specialized to its two call sites (rename
and recolor). -/
def updateLayer (s : AppState) (id : String) (newName : Option String)
    (newColor : Option RGBA) : AppState :=
  let s1 := pushToHistory s s.layers s.masks
  { s1 with
    layers := s1.layers.map fun l =>
      if l.id = id then
        { l with name := newName.getD l.name, color := newColor.getD l.color }
      else l }

/-- `removeLayer` in App.tsx: rejected when at most one layer remains;
otherwise push history, drop the layer, and — when the active layer was the
removed one — set the active id to the *pre-removal* `layers[0].id`. -/
def removeLayer (s : AppState) (id : String) : AppState :=
  match s.layers with
  | [] => s
  | l0 :: rest =>
    if (l0 :: rest).length ≤ 1 then s
    else
      let s1 := pushToHistory s s.layers s.masks
      { s1 with
        layers := s1.layers.filter fun l => l.id ≠ id
        activeLayerId := if s.activeLayerId = id then l0.id else s.activeLayerId }

/-- `toggleVisibility` in App.tsx. -/
def toggleVisibility (s : AppState) (id : String) : AppState :=
  let s1 := pushToHistory s s.layers s.masks
  { s1 with
    layers := s1.layers.map fun l =>
      if l.id = id then { l with isVisible := !l.isVisible } else l }

/-- `runAIDetection` in App.tsx: history is pushed before the service call;
`labels` is the service's reply and `now` the `Date.now()` id seed.  A
non-empty reply creates one layer per label; when the registry is exactly
the pristine `['fg']` singleton the new layers replace it, otherwise they
are appended; the first new layer becomes active. -/
def runAIDetection (s : AppState) (labels : List String) (now : Nat) : AppState :=
  let s1 := pushToHistory s s.layers s.masks
  if labels.isEmpty then s1
  else
    let newLayers : List Layer := labels.enum.map fun p =>
      ⟨"ai-" ++ toString p.1 ++ "-" ++ toString now, p.2,
        PREDEFINED_COLORS.getD ((s.layers.length + p.1) % PREDEFINED_COLORS.length) clearPx,
        true, false⟩
    { s1 with
      layers :=
        (match s.layers with
         | [l] => if l.id = "fg" then newLayers else s.layers ++ newLayers
         | _ => s.layers ++ newLayers)
      activeLayerId :=
        match newLayers.head? with
        | some l => l.id
        | none => s1.activeLayerId }

/-! ### Polygon tool state machine -/

/-- An image-space point, as produced by `getPointerPos`; coordinates are
exact rationals standing for the JS numbers. -/
abbrev Point : Type := ℚ × ℚ

/-- The polygon-relevant slice of CanvasEditor state: the collected
vertices and the active layer's mask. -/
structure PolyState where
  polyPoints : List Point
  mask : Img

/-- The closing test of `handlePointerDown`'s polygon branch:
`Math.sqrt((start.x-pos.x)² + (start.y-pos.y)²) < 10 / zoom`, embedded by
the equivalent squared comparison (both sides nonnegative for `zoom > 0`,
and squaring is strictly monotone there). -/
def closesPolygon (start pos : Point) (zoom : ℚ) : Bool :=
  decide ((start.1 - pos.1) ^ 2 + (start.2 - pos.2) ^ 2 < (10 / zoom) ^ 2)

/-- `commitPolygon` in CanvasEditor: with fewer than 3 vertices the vertex
list is discarded and nothing else happens; otherwise the closed polygon is
scan-converted into the active layer's mask (the canvas `fill()` primitive
is the parameter `fillPoly`) and the vertex list is cleared. -/
def commitPolygonFn (fillPoly : List Point → Img → Img) (st : PolyState) :
    PolyState :=
  if st.polyPoints.length < 3 then { st with polyPoints := [] }
  else { polyPoints := [], mask := fillPoly st.polyPoints st.mask }

/-- `handlePointerDown`, polygon branch: when more than 2 vertices exist
and the click closes the loop (within the `10 / zoom` radius of the first
vertex) the polygon commits immediately; otherwise the click position is
appended as a new vertex. -/
def polygonPointerDown (fillPoly : List Point → Img → Img) (st : PolyState)
    (pos : Point) (zoom : ℚ) : PolyState :=
  match st.polyPoints.head? with
  | some start =>
    if 2 < st.polyPoints.length ∧ closesPolygon start pos zoom = true then
      commitPolygonFn fillPoly st
    else { st with polyPoints := st.polyPoints ++ [pos] }
  | none => { st with polyPoints := st.polyPoints ++ [pos] }

/-! ### Flood-Fill Engine (`performFloodFill` in CanvasEditor) -/

/-- An in-bounds pixel position of a `w × h` image. -/
abbrev Pos (w h : Nat) : Type := Fin w × Fin h

/-- The four in-bounds neighbor candidates, in the order the source checks
them: right (`x < width-1`), left (`x > 0`), down (`y < height-1`),
up (`y > 0`). -/
def neighbors {w h : Nat} (p : Pos w h) : List (Pos w h) :=
  (if hx : p.1.val + 1 < w then [(⟨p.1.val + 1, hx⟩, p.2)] else []) ++
  (if 0 < p.1.val then
    [(⟨p.1.val - 1, Nat.lt_of_le_of_lt (Nat.sub_le _ _) p.1.isLt⟩, p.2)] else []) ++
  (if hy : p.2.val + 1 < h then [(p.1, ⟨p.2.val + 1, hy⟩)] else []) ++
  (if 0 < p.2.val then
    [(p.1, ⟨p.2.val - 1, Nat.lt_of_le_of_lt (Nat.sub_le _ _) p.2.isLt⟩)] else [])

/-- 4-connectivity on pixel positions: equal in one coordinate and off by
exactly one in the other. -/
def adjacent {w h : Nat} (p q : Pos w h) : Prop :=
  (p.1.val = q.1.val ∧ (p.2.val + 1 = q.2.val ∨ q.2.val + 1 = p.2.val)) ∨
  (p.2.val = q.2.val ∧ (p.1.val + 1 = q.1.val ∨ q.1.val + 1 = p.1.val))

/-- The neighbor list enumerates exactly the 4-adjacent positions. -/
theorem mem_neighbors {w h : Nat} (p q : Pos w h) :
    q ∈ neighbors p ↔ adjacent p q := by
  obtain ⟨⟨px, hpx⟩, ⟨py, hpy⟩⟩ := p
  obtain ⟨⟨qx, hqx⟩, ⟨qy, hqy⟩⟩ := q
  constructor
  · intro hm
    have hcoord : (qx = px + 1 ∧ qy = py) ∨ (0 < px ∧ qx = px - 1 ∧ qy = py) ∨
        (qy = py + 1 ∧ qx = px) ∨ (0 < py ∧ qy = py - 1 ∧ qx = px) := by
      rcases List.mem_append.1 hm with hm' | hm4
      · rcases List.mem_append.1 hm' with hm'' | hm3
        · rcases List.mem_append.1 hm'' with hm1 | hm2
          · left
            revert hm1
            split
            · intro h1
              simp only [List.mem_singleton, Prod.mk.injEq, Fin.mk.injEq] at h1
              exact ⟨h1.1, h1.2⟩
            · intro h1
              exact absurd h1 (List.not_mem_nil _)
          · right; left
            revert hm2
            split
            · rename_i hc
              intro h1
              simp only [List.mem_singleton, Prod.mk.injEq, Fin.mk.injEq] at h1
              exact ⟨hc, h1.1, h1.2⟩
            · intro h1
              exact absurd h1 (List.not_mem_nil _)
        · right; right; left
          revert hm3
          split
          · intro h1
            simp only [List.mem_singleton, Prod.mk.injEq, Fin.mk.injEq] at h1
            exact ⟨h1.2, h1.1⟩
          · intro h1
            exact absurd h1 (List.not_mem_nil _)
      · right; right; right
        revert hm4
        split
        · rename_i hc
          intro h1
          simp only [List.mem_singleton, Prod.mk.injEq, Fin.mk.injEq] at h1
          exact ⟨hc, h1.2, h1.1⟩
        · intro h1
          exact absurd h1 (List.not_mem_nil _)
    simp only [adjacent]
    omega
  · intro hadj
    have memApp : ∀ {A B C D : List (Pos w h)} {x : Pos w h},
        x ∈ A ∨ x ∈ B ∨ x ∈ C ∨ x ∈ D → x ∈ A ++ B ++ C ++ D := by
      intro A B C D x hx
      simp only [List.mem_append]
      tauto
    simp only [adjacent] at hadj
    apply memApp
    rcases hadj with ⟨hx, hy | hy⟩ | ⟨hy, hx | hx⟩
    · -- down: qy = py + 1
      right; right; left
      rw [dif_pos (show py + 1 < h by omega)]
      refine List.mem_singleton.2 ?_
      simp only [Prod.mk.injEq, Fin.mk.injEq]
      omega
    · -- up: py = qy + 1
      right; right; right
      rw [if_pos (show 0 < py by omega)]
      refine List.mem_singleton.2 ?_
      simp only [Prod.mk.injEq, Fin.mk.injEq]
      omega
    · -- right: qx = px + 1
      left
      rw [dif_pos (show px + 1 < w by omega)]
      refine List.mem_singleton.2 ?_
      simp only [Prod.mk.injEq, Fin.mk.injEq]
      omega
    · -- left: px = qx + 1
      right; left
      rw [if_pos (show 0 < px by omega)]
      refine List.mem_singleton.2 ?_
      simp only [Prod.mk.injEq, Fin.mk.injEq]
      omega

/-- The neighbor-processing step of the fill loop: for each candidate in
order, when it is unvisited and color-matches, mark it visited and push it
(JS array `push`; the list head is the top of the stack). -/
def pushNbrs {w h : Nat} (P : Pos w h → Bool) (nbrs : List (Pos w h))
    (acc : Finset (Pos w h) × List (Pos w h)) : Finset (Pos w h) × List (Pos w h) :=
  nbrs.foldl
    (fun acc q => if q ∉ acc.1 ∧ P q = true then (insert q acc.1, q :: acc.2) else acc)
    acc

/-- `pushNbrs` keeps the quantity `#unvisited + stack length` constant:
every push marks one previously unvisited position. -/
theorem pushNbrs_measure {w h : Nat} (P : Pos w h → Bool) (nbrs : List (Pos w h))
    (acc : Finset (Pos w h) × List (Pos w h)) :
    ((Finset.univ \ (pushNbrs P nbrs acc).1).card + (pushNbrs P nbrs acc).2.length) =
      (Finset.univ \ acc.1).card + acc.2.length := by
  induction nbrs generalizing acc with
  | nil => rfl
  | cons q rest ih =>
    show ((Finset.univ \ (pushNbrs P rest _).1).card + (pushNbrs P rest _).2.length) = _
    rw [ih]
    dsimp only
    by_cases hq : q ∉ acc.1 ∧ P q = true
    · rw [if_pos hq]
      have hmem : q ∈ Finset.univ \ acc.1 := by
        simp only [Finset.mem_sdiff, Finset.mem_univ, true_and]
        exact hq.1
      have : Finset.univ \ (insert q acc.1) = (Finset.univ \ acc.1).erase q := by
        ext r
        simp only [Finset.mem_sdiff, Finset.mem_univ, true_and, Finset.mem_insert,
          Finset.mem_erase]
        tauto
      simp only [this, List.length_cons, Finset.card_erase_of_mem hmem]
      have hpos : 0 < (Finset.univ \ acc.1).card := Finset.card_pos.2 ⟨q, hmem⟩
      omega
    · rw [if_neg hq]

/-- The iterative fill loop of `performFloodFill`: pop a position, record
it as written, push its unvisited matching neighbors, repeat until the
stack is empty; returns the set of written positions. -/
def fillLoop {w h : Nat} (P : Pos w h → Bool) :
    List (Pos w h) → Finset (Pos w h) → Finset (Pos w h) → Finset (Pos w h)
  | [], _, written => written
  | p :: rest, visited, written =>
    let vs := pushNbrs P (neighbors p) (visited, rest)
    fillLoop P vs.2 vs.1 (insert p written)
termination_by stack visited _ => (Finset.univ \ visited).card + stack.length
decreasing_by
  rw [pushNbrs_measure]
  simp only [List.length_cons]
  omega

/-- The set of pixels `performFloodFill` writes for match predicate `P`
and in-bounds seed `s`: the loop started from stack `[s]`, visited `{s}`. -/
def fillWritten {w h : Nat} (P : Pos w h → Bool) (s : Pos w h) : Finset (Pos w h) :=
  fillLoop P [s] {s} ∅

theorem fillLoop_nil {w h : Nat} (P : Pos w h → Bool) (visited written : Finset (Pos w h)) :
    fillLoop P [] visited written = written := by
  rw [fillLoop.eq_def]

theorem fillLoop_cons {w h : Nat} (P : Pos w h → Bool) (p : Pos w h)
    (rest : List (Pos w h)) (visited written : Finset (Pos w h)) :
    fillLoop P (p :: rest) visited written =
      fillLoop P (pushNbrs P (neighbors p) (visited, rest)).2
        (pushNbrs P (neighbors p) (visited, rest)).1 (insert p written) := by
  rw [fillLoop.eq_def]

/-- Membership in the visited component after processing a neighbor list. -/
theorem pushNbrs_mem_fst {w h : Nat} (P : Pos w h → Bool) (nbrs : List (Pos w h))
    (v : Finset (Pos w h)) (s : List (Pos w h)) (r : Pos w h) :
    r ∈ (pushNbrs P nbrs (v, s)).1 ↔ r ∈ v ∨ (r ∈ nbrs ∧ P r = true) := by
  induction nbrs generalizing v s with
  | nil => simp [pushNbrs]
  | cons q rest ih =>
    have hstep : pushNbrs P (q :: rest) (v, s) =
        pushNbrs P rest (if q ∉ v ∧ P q = true then (insert q v, q :: s) else (v, s)) := rfl
    rw [hstep]
    by_cases hq : q ∉ v ∧ P q = true
    · rw [if_pos hq, ih]
      simp only [Finset.mem_insert, List.mem_cons]
      constructor
      · rintro ((rfl | hv) | ⟨hr, hp⟩)
        · exact Or.inr ⟨Or.inl rfl, hq.2⟩
        · exact Or.inl hv
        · exact Or.inr ⟨Or.inr hr, hp⟩
      · rintro (hv | ⟨rfl | hr, hp⟩)
        · exact Or.inl (Or.inr hv)
        · exact Or.inl (Or.inl rfl)
        · exact Or.inr ⟨hr, hp⟩
    · rw [if_neg hq, ih]
      simp only [List.mem_cons]
      constructor
      · rintro (hv | ⟨hr, hp⟩)
        · exact Or.inl hv
        · exact Or.inr ⟨Or.inr hr, hp⟩
      · rintro (hv | ⟨rfl | hr, hp⟩)
        · exact Or.inl hv
        · rcases Decidable.em (r ∈ v) with hv | hv
          · exact Or.inl hv
          · exact absurd ⟨hv, hp⟩ hq
        · exact Or.inr ⟨hr, hp⟩

/-- Membership in the stack component after processing a neighbor list. -/
theorem pushNbrs_mem_snd {w h : Nat} (P : Pos w h → Bool) (nbrs : List (Pos w h))
    (v : Finset (Pos w h)) (s : List (Pos w h)) (r : Pos w h) :
    r ∈ (pushNbrs P nbrs (v, s)).2 ↔ r ∈ s ∨ (r ∈ nbrs ∧ P r = true ∧ r ∉ v) := by
  induction nbrs generalizing v s with
  | nil => simp [pushNbrs]
  | cons q rest ih =>
    have hstep : pushNbrs P (q :: rest) (v, s) =
        pushNbrs P rest (if q ∉ v ∧ P q = true then (insert q v, q :: s) else (v, s)) := rfl
    rw [hstep]
    by_cases hq : q ∉ v ∧ P q = true
    · rw [if_pos hq, ih]
      simp only [List.mem_cons, Finset.mem_insert]
      constructor
      · rintro ((rfl | hs) | ⟨hr, hp, hni⟩)
        · exact Or.inr ⟨Or.inl rfl, hq.2, hq.1⟩
        · exact Or.inl hs
        · refine Or.inr ⟨Or.inr hr, hp, fun hv => hni (Or.inr hv)⟩
      · rintro (hs | ⟨rfl | hr, hp, hnv⟩)
        · exact Or.inl (Or.inr hs)
        · exact Or.inl (Or.inl rfl)
        · rcases Decidable.em (r = q) with rfl | hne
          · exact Or.inl (Or.inl rfl)
          · exact Or.inr ⟨hr, hp, fun hri => (hri.elim hne hnv)⟩
    · rw [if_neg hq, ih]
      simp only [List.mem_cons]
      constructor
      · rintro (hs | ⟨hr, hp, hnv⟩)
        · exact Or.inl hs
        · exact Or.inr ⟨Or.inr hr, hp, hnv⟩
      · rintro (hs | ⟨rfl | hr, hp, hnv⟩)
        · exact Or.inl hs
        · exact absurd ⟨hnv, hp⟩ hq
        · exact Or.inr ⟨hr, hp, hnv⟩

/-- Soundness of the fill loop: if stack, visited and written all lie in a
set `C` closed under matching 4-adjacent steps, so does everything the
loop writes. -/
theorem fillLoop_sound {w h : Nat} (P : Pos w h → Bool) (C : Set (Pos w h))
    (hC : ∀ p ∈ C, ∀ q, adjacent p q → P q = true → q ∈ C)
    (stack : List (Pos w h)) (visited written : Finset (Pos w h))
    (hstack : ∀ p ∈ stack, p ∈ C) (hvis : ∀ p ∈ visited, p ∈ C)
    (hwr : ∀ p ∈ written, p ∈ C) :
    ∀ r ∈ fillLoop P stack visited written, r ∈ C := by
  induction stack, visited, written using fillLoop.induct P with
  | case1 visited written =>
    rw [fillLoop_nil]
    exact hwr
  | case2 p rest visited written vs ih =>
    rw [fillLoop_cons]
    have hp : p ∈ C := hstack p (List.mem_cons_self p rest)
    refine ih ?_ ?_ ?_
    · intro r hr
      rcases (pushNbrs_mem_snd P (neighbors p) visited rest r).1 hr with hr | ⟨hn, hP, _⟩
      · exact hstack r (List.mem_cons_of_mem p hr)
      · exact hC p hp r ((mem_neighbors p r).1 hn) hP
    · intro r hr
      rcases (pushNbrs_mem_fst P (neighbors p) visited rest r).1 hr with hr | ⟨hn, hP⟩
      · exact hvis r hr
      · exact hC p hp r ((mem_neighbors p r).1 hn) hP
    · intro r hr
      rcases Finset.mem_insert.1 hr with rfl | hr
      · exact hp
      · exact hwr r hr

/-- Completeness of the fill loop: under the loop invariants (stack and
written inside visited, every visited position pending or written, fully
processed written positions), the final written set contains every visited
position and is closed under matching 4-adjacent steps. -/
theorem fillLoop_complete {w h : Nat} (P : Pos w h → Bool)
    (stack : List (Pos w h)) (visited written : Finset (Pos w h))
    (hstack : ∀ p ∈ stack, p ∈ visited)
    (hwrvis : ∀ p ∈ written, p ∈ visited)
    (hpend : ∀ p ∈ visited, p ∈ written ∨ p ∈ stack)
    (hdone : ∀ p ∈ written, ∀ q, adjacent p q → P q = true → q ∈ visited) :
    (∀ r ∈ visited, r ∈ fillLoop P stack visited written) ∧
      (∀ r ∈ fillLoop P stack visited written, ∀ q, adjacent r q → P q = true →
        q ∈ fillLoop P stack visited written) := by
  induction stack, visited, written using fillLoop.induct P with
  | case1 visited written =>
    rw [fillLoop_nil]
    constructor
    · intro r hr
      rcases hpend r hr with hr' | hr'
      · exact hr'
      · exact absurd hr' (List.not_mem_nil r)
    · intro r hr q hadj hP
      rcases hpend q (hdone r hr q hadj hP) with hq | hq
      · exact hq
      · exact absurd hq (List.not_mem_nil q)
  | case2 p rest visited written vs ih =>
    rw [fillLoop_cons]
    have hp : p ∈ visited := hstack p (List.mem_cons_self p rest)
    have hvis' : ∀ r ∈ visited, r ∈ (pushNbrs P (neighbors p) (visited, rest)).1 :=
      fun r hr => (pushNbrs_mem_fst P (neighbors p) visited rest r).2 (Or.inl hr)
    obtain ⟨ha, hb⟩ := ih
      (by
        intro r hr
        rcases (pushNbrs_mem_snd P (neighbors p) visited rest r).1 hr with hr | ⟨hn, hP, _⟩
        · exact hvis' r (hstack r (List.mem_cons_of_mem p hr))
        · exact (pushNbrs_mem_fst P (neighbors p) visited rest r).2 (Or.inr ⟨hn, hP⟩))
      (by
        intro r hr
        rcases Finset.mem_insert.1 hr with rfl | hr
        · exact hvis' r hp
        · exact hvis' r (hwrvis r hr))
      (by
        intro r hr
        rcases (pushNbrs_mem_fst P (neighbors p) visited rest r).1 hr with hr | ⟨hn, hP⟩
        · rcases hpend r hr with hr' | hr'
          · exact Or.inl (Finset.mem_insert_of_mem hr')
          · rcases List.mem_cons.1 hr' with rfl | hr''
            · exact Or.inl (Finset.mem_insert_self r written)
            · exact Or.inr ((pushNbrs_mem_snd P (neighbors p) visited rest r).2 (Or.inl hr''))
        · rcases Decidable.em (r ∈ visited) with hv | hv
          · rcases hpend r hv with hr' | hr'
            · exact Or.inl (Finset.mem_insert_of_mem hr')
            · rcases List.mem_cons.1 hr' with rfl | hr''
              · exact Or.inl (Finset.mem_insert_self r written)
              · exact Or.inr ((pushNbrs_mem_snd P (neighbors p) visited rest r).2 (Or.inl hr''))
          · exact Or.inr ((pushNbrs_mem_snd P (neighbors p) visited rest r).2 (Or.inr ⟨hn, hP, hv⟩)))
      (by
        intro r hr q hadj hP
        rcases Finset.mem_insert.1 hr with heq | hr
        · exact (pushNbrs_mem_fst P (neighbors p) visited rest q).2
            (Or.inr ⟨(mem_neighbors p q).2 (heq ▸ hadj), hP⟩)
        · exact hvis' q (hdone r hr q hadj hP))
    refine ⟨fun r hr => ha r (hvis' r hr), hb⟩

/-- Reachability from the seed through pixels satisfying the match
predicate, along 4-adjacent steps: the 4-connected component of the seed
in the subgraph of matching pixels (the seed itself always matches, see
`seed_matches` below). -/
inductive ReachP {w h : Nat} (P : Pos w h → Bool) (s : Pos w h) : Pos w h → Prop
  | refl : ReachP P s s
  | step {p q : Pos w h} : ReachP P s p → adjacent p q → P q = true → ReachP P s q

/-- The fill loop writes exactly the 4-connected component of the seed
under the match predicate. -/
theorem mem_fillWritten {w h : Nat} (P : Pos w h → Bool) (s r : Pos w h) :
    r ∈ fillWritten P s ↔ ReachP P s r := by
  constructor
  · intro hr
    refine fillLoop_sound P (setOf (ReachP P s))
      (fun p hp q hadj hP => ReachP.step hp hadj hP) [s] {s} ∅ ?_ ?_ ?_ r hr
    · intro p hp
      have heq := List.mem_singleton.1 hp
      subst heq
      exact ReachP.refl
    · intro p hp
      have heq := Finset.mem_singleton.1 hp
      subst heq
      exact ReachP.refl
    · intro p hp
      exact absurd hp (Finset.not_mem_empty p)
  · intro hr
    obtain ⟨ha, hb⟩ := fillLoop_complete P [s] {s} ∅
      (fun p hp => Finset.mem_singleton.2 (List.mem_singleton.1 hp))
      (fun p hp => absurd hp (Finset.not_mem_empty p))
      (fun p hp => Or.inr (List.mem_singleton.2 (Finset.mem_singleton.1 hp)))
      (fun p hp => absurd hp (Finset.not_mem_empty p))
    induction hr with
    | refl => exact ha s (Finset.mem_singleton_self s)
    | step hreach hadj hP ih => exact hb _ ih _ hadj hP

/-- Round a rational to the nearest integer, ties to even — the rounding
IEEE-754 applies to the scaled significand. -/
def rne (q : ℚ) : ℤ :=
  if q - ⌊q⌋ < 1 / 2 then ⌊q⌋
  else if 1 / 2 < q - ⌊q⌋ then ⌊q⌋ + 1
  else if ⌊q⌋ % 2 = 0 then ⌊q⌋ else ⌊q⌋ + 1

/-- The binary exponent (floor of log₂) of a rational in `[1, 2^9)`, by
direct comparison; `[1, 2^9)` covers every value this file rounds (the
tolerance products lie in `(2, 256)`). -/
def exp2Of (q : ℚ) : Nat :=
  if q < 2 then 0 else if q < 4 then 1 else if q < 8 then 2
  else if q < 16 then 3 else if q < 32 then 4 else if q < 64 then 5
  else if q < 128 then 6 else if q < 256 then 7 else 8

/-- Round a nonnegative rational below `2^9` to the nearest IEEE-754
binary64 value (round-to-nearest, ties-to-even): scale the significand to
52 fractional bits using the binary exponent and round to an integer.
Normal range only, which covers every value arising here. -/
def roundDouble (q : ℚ) : ℚ :=
  if q = 0 then 0
  else (rne (q * 2 ^ (52 - exp2Of q)) : ℚ) / 2 ^ (52 - exp2Of q)

/-- The binary64 value denoted by the JS literal `2.55` (the nearest
double to the exact rational 51/20). -/
def fl255 : ℚ := roundDouble (51 / 20)

/-- The threshold `tolerance * 2.55` as the program computes it: the
integer `tolerance` is exact in binary64, so the JS product is the
correctly rounded double of `fl255 * tolerance`. -/
def tolFloat (tolerance : Nat) : ℚ := roundDouble (fl255 * tolerance)

/-- `colorMatch` from `performFloodFill`: channel-wise distance to the
seed color at most `tolerance * 2.55`, alpha ignored.  The JS comparison
`Math.abs(c - c0) <= tolerance * 2.55` runs in binary64: the channel
distance (an integer in 0..255) is exact, and the threshold is the
rounded product `tolFloat tolerance`, which at tolerance 100 is strictly
below 255. -/
def colorMatch (c c0 : RGBA) (tolerance : Nat) : Bool :=
  decide ((Nat.dist c.r c0.r : ℚ) ≤ tolFloat tolerance) &&
  decide ((Nat.dist c.g c0.g : ℚ) ≤ tolFloat tolerance) &&
  decide ((Nat.dist c.b c0.b : ℚ) ≤ tolFloat tolerance)

/-- The tolerance predicate exactly as claim C2 words it: threshold the
exact real `tolerance × 2.55`, i.e. `100 · |c − c0| ≤ 255 · tolerance`.
This follows the spec's words, to be compared with `colorMatch` above;
the two differ where the exact product is an integer (tolerance a
positive multiple of 20), where the binary64 product falls just below. -/
def specColorMatch (c c0 : RGBA) (tolerance : Nat) : Bool :=
  decide (100 * Nat.dist c.r c0.r ≤ 255 * tolerance) &&
  decide (100 * Nat.dist c.g c0.g ≤ 255 * tolerance) &&
  decide (100 * Nat.dist c.b c0.b ≤ 255 * tolerance)

/-- The claim's match predicate over positions, exact-threshold reading. -/
def specMatchesAt {w h : Nat} (src : Img) (c0 : RGBA) (tolerance : Nat)
    (p : Pos w h) : Bool :=
  specColorMatch (src p.1.val p.2.val) c0 tolerance

/-- The match predicate of one fill run: the source pixel at the position
color-matches the seed color `c0` in the original source image. -/
def matchesAt {w h : Nat} (src : Img) (c0 : RGBA) (tolerance : Nat)
    (p : Pos w h) : Bool :=
  colorMatch (src p.1.val p.2.val) c0 tolerance

/-- `performFloodFill` in CanvasEditor: a no-op when the source samples are
unavailable (`sourceImageDataRef.current === null`) or when the floored
seed is out of bounds; otherwise every pixel of the seed's 4-connected
color-matching component is overwritten with opaque white in the active
layer's mask and all other mask pixels are kept. -/
def performFloodFill (w h : Nat) (src0 : Option Img) (tolerance : Nat)
    (sx sy : ℚ) (mask : Img) : Img :=
  match src0 with
  | none => mask
  | some src =>
    let startX : Int := Int.floor sx
    let startY : Int := Int.floor sy
    if hb : startX < 0 ∨ (w : Int) ≤ startX ∨ startY < 0 ∨ (h : Int) ≤ startY then
      mask
    else
      let c0 := src startX.toNat startY.toNat
      let seed : Pos w h :=
        (⟨startX.toNat, by omega⟩, ⟨startY.toNat, by omega⟩)
      let written := fillWritten (matchesAt src c0 tolerance) seed
      fun x y =>
        if hxy : x < w ∧ y < h then
          if (⟨x, hxy.1⟩, ⟨y, hxy.2⟩) ∈ written then whitePx else mask x y
        else mask x y

/-- A nonnegative value stays nonnegative under significand rounding. -/
theorem rne_nonneg (q : ℚ) (hq : 0 ≤ q) : 0 ≤ rne q := by
  have h0 : (0 : ℤ) ≤ ⌊q⌋ := Int.floor_nonneg.2 hq
  rw [rne]
  split_ifs <;> omega

/-- Rounding to binary64 preserves nonnegativity. -/
theorem roundDouble_nonneg (q : ℚ) (hq : 0 ≤ q) : 0 ≤ roundDouble q := by
  rw [roundDouble]
  split_ifs with h0
  · exact le_refl 0
  · apply div_nonneg
    · exact_mod_cast rne_nonneg _ (by positivity)
    · positivity

/-- The rounded literal `2.55` is nonnegative. -/
theorem fl255_nonneg : 0 ≤ fl255 := roundDouble_nonneg _ (by norm_num)

/-- Every rounded tolerance threshold is nonnegative, so each pixel always
matches its own color (the seed matches itself). -/
theorem tolFloat_nonneg (t : Nat) : 0 ≤ tolFloat t :=
  roundDouble_nonneg _ (mul_nonneg fl255_nonneg (by positivity))

/-- C2, amended: for `fill(seedPoint, tolerance)` with available source
samples and an in-bounds floored seed, the set of mask pixels written is
exactly the 4-connected component of the seed under the per-channel
tolerance predicate (threshold the binary64 product `tolerance * 2.55`,
alpha ignored) read from the original source image; every written pixel
(the seed included, which always matches itself) becomes opaque white
regardless of prior mask content, every other mask pixel is unchanged; an
out-of-bounds seed, or unavailable source samples, leaves the mask
entirely unchanged. -/
theorem floodFill_component_spec (w h : Nat) (src : Img) (tolerance : Nat)
    (sx sy : ℚ) (mask : Img) :
    (∀ seed : Pos w h,
      0 ≤ Int.floor sx → 0 ≤ Int.floor sy →
      seed.1.val = (Int.floor sx).toNat → seed.2.val = (Int.floor sy).toNat →
      matchesAt src (src seed.1.val seed.2.val) tolerance seed = true ∧
      ∀ p : Pos w h,
        (ReachP (matchesAt (w := w) (h := h) src (src seed.1.val seed.2.val) tolerance)
            seed p →
          performFloodFill w h (some src) tolerance sx sy mask p.1.val p.2.val = whitePx) ∧
        (¬ ReachP (matchesAt (w := w) (h := h) src (src seed.1.val seed.2.val) tolerance)
            seed p →
          performFloodFill w h (some src) tolerance sx sy mask p.1.val p.2.val =
            mask p.1.val p.2.val)) ∧
    ((Int.floor sx < 0 ∨ (w : Int) ≤ Int.floor sx ∨ Int.floor sy < 0 ∨
        (h : Int) ≤ Int.floor sy) →
      performFloodFill w h (some src) tolerance sx sy mask = mask) ∧
    performFloodFill w h none tolerance sx sy mask = mask := by
  refine ⟨?_, ?_, rfl⟩
  · intro seed hx hy h1 h2
    have hxw : (Int.floor sx).toNat < w := h1 ▸ seed.1.isLt
    have hyh : (Int.floor sy).toNat < h := h2 ▸ seed.2.isLt
    have hb : ¬(Int.floor sx < 0 ∨ (w : Int) ≤ Int.floor sx ∨ Int.floor sy < 0 ∨
        (h : Int) ≤ Int.floor sy) := by omega
    refine ⟨by simp [matchesAt, colorMatch, Nat.dist_self, tolFloat_nonneg], ?_⟩
    intro p
    have hred : performFloodFill w h (some src) tolerance sx sy mask p.1.val p.2.val =
        if p ∈ fillWritten (matchesAt src (src seed.1.val seed.2.val) tolerance) seed
        then whitePx else mask p.1.val p.2.val := by
      simp only [performFloodFill, dif_neg hb]
      rw [dif_pos (⟨p.1.isLt, p.2.isLt⟩ : p.1.val < w ∧ p.2.val < h)]
      simp only [← h1, ← h2, Fin.eta, Prod.mk.eta]
    rw [hred]
    constructor
    · intro hre
      rw [if_pos ((mem_fillWritten _ seed p).2 hre)]
    · intro hnre
      rw [if_neg (fun hmem => hnre ((mem_fillWritten _ seed p).1 hmem))]
  · intro hb
    simp only [performFloodFill, dif_pos hb]

/-! ### Concrete fixtures used by counterexamples and witnesses -/

/-- The default foreground layer created at session start. -/
def fgLayer : Layer := ⟨"fg", "Foreground", ⟨239, 68, 68, 255⟩, true, false⟩

/-- A second instance layer. -/
def aLayer : Layer := ⟨"a", "A", ⟨34, 197, 94, 255⟩, true, false⟩

/-- A mask covering every pixel. -/
def fullMask : Img := fun _ _ => whitePx

/-- A 1-pixel-relevant constant opaque source image. -/
def imgC : Img := fun _ _ => ⟨10, 20, 30, 255⟩

/-- Mask store after the `"fg"` layer has been removed from the registry
but its (blank) canvas is still in the map, and layer `"a"` has a full
mask: the layer registry is `[aLayer]` only. -/
def masksC1 : MaskMap := fun lid =>
  if lid = "a" then some fullMask
  else if lid = "fg" then some blankImg else none

/-- C1 counterexample: with the registry holding only layer `"a"` (no
`"fg"` layer) but the mask-canvas map still holding a blank `"fg"` canvas
— exactly the state `removeLayer` leaves behind, since it never deletes
mask canvases — the claimed output (source under the active mask alone)
differs from the code's output (which still intersects with the stale
`"fg"` canvas and so produces a fully transparent pixel). -/
theorem instance_export_counterexample :
    exportInstance "a" masksC1 imgC 0 0 ≠
      specInstanceExport [aLayer] "a" masksC1 imgC 0 0 := by
  decide

/-- C1 amended: the `instance` export equals the source masked by the
active layer's mask, additionally intersected with the mask stored under
id `"fg"` whenever the active id is not `"fg"` and the mask-canvas map
holds an entry for `"fg"` — regardless of whether a `"fg"` layer exists in
the Layer Registry; only when the map has no `"fg"` entry (or the active
layer is `"fg"`) does the active mask alone apply. -/
theorem instance_export_amended (activeId : String) (masks : MaskMap) (img : Img)
    (_hbin : ∀ lid m, masks lid = some m → ∀ x y, binAlpha (m x y)) :
    ∀ x y, exportInstance activeId masks img x y =
      if coversAt masks activeId x y = true ∧
          (activeId = "fg" ∨ (masks "fg").isNone = true ∨
            coversAt masks "fg" x y = true)
      then img x y else clearPx := by
  intro x y
  by_cases hfg : activeId = "fg"
  · subst hfg
    rcases hma : masks "fg" with _ | am
    · simp [exportInstance, coversAt, hma, destIn, blankImg, clearPx]
    · simp only [exportInstance, coversAt, hma, ne_eq, not_true_eq_false,
        if_false, destIn]
      by_cases ha : (am x y).a = 0 <;> simp [ha]
  · rcases hma : masks activeId with _ | am
    · simp [exportInstance, coversAt, hma, destIn, blankImg, clearPx]
    · rcases hf : masks "fg" with _ | fgm
      · simp only [exportInstance, coversAt, hma, hf, ne_eq, hfg,
          not_false_eq_true, if_true, destIn, Option.isNone]
        by_cases ha : (am x y).a = 0 <;> simp [ha, hfg]
      · simp only [exportInstance, coversAt, hma, hf, ne_eq, hfg,
          not_false_eq_true, if_true, destIn, Option.isNone]
        by_cases hfa : (fgm x y).a = 0
        · simp [hfa, hfg, clearPx]
        · by_cases ha : (am x y).a = 0 <;> simp [hfa, ha, hfg]

/-- Witness for the amended C1 theorem at a concrete binary-alpha state. -/
theorem instance_export_amended_w :
    (∀ lid m, masksC1 lid = some m → ∀ x y, binAlpha (m x y)) ∧
      exportInstance "a" masksC1 imgC 0 0 =
        (if coversAt masksC1 "a" 0 0 = true ∧
            ("a" = "fg" ∨ (masksC1 "fg").isNone = true ∨
              coversAt masksC1 "fg" 0 0 = true)
        then imgC 0 0 else clearPx) := by
  have hbin : ∀ lid m, masksC1 lid = some m → ∀ x y, binAlpha (m x y) := by
    intro lid m hm x y
    by_cases h1 : lid = "a"
    · simp [masksC1, h1] at hm
      subst hm
      exact Or.inr rfl
    · by_cases h2 : lid = "fg"
      · simp [masksC1, h1, h2] at hm
        subst hm
        exact Or.inl rfl
      · simp [masksC1, h1, h2] at hm
  exact ⟨hbin, instance_export_amended "a" masksC1 imgC hbin 0 0⟩

/-- C9: while collecting a polygon, a click appends its position as a new
vertex, unless more than 2 vertices already exist and the click falls
strictly within image-space distance `10 / zoom` of the first vertex, in
which case the polygon commits immediately — rasterizing the pre-click
vertex list — and no vertex is added. -/
theorem polygon_click_spec (fillPoly : List Point → Img → Img) (st : PolyState)
    (pos : Point) (zoom : ℚ) :
    (∀ start, st.polyPoints.head? = some start →
      (2 < st.polyPoints.length ∧ closesPolygon start pos zoom = true →
        polygonPointerDown fillPoly st pos zoom =
          ⟨[], fillPoly st.polyPoints st.mask⟩) ∧
      (¬(2 < st.polyPoints.length ∧ closesPolygon start pos zoom = true) →
        polygonPointerDown fillPoly st pos zoom =
          ⟨st.polyPoints ++ [pos], st.mask⟩)) ∧
    (st.polyPoints.head? = none →
      polygonPointerDown fillPoly st pos zoom = ⟨st.polyPoints ++ [pos], st.mask⟩) := by
  constructor
  · intro start hh
    constructor
    · intro hc
      have hnotlt : ¬ st.polyPoints.length < 3 := by omega
      simp only [polygonPointerDown, hh, if_pos hc, commitPolygonFn, if_neg hnotlt]
    · intro hc
      simp only [polygonPointerDown, hh, if_neg hc]
  · intro hh
    simp only [polygonPointerDown, hh]

/-- Witness for C9: three collected vertices and a click on the first
vertex at zoom 1 commit immediately. -/
theorem polygon_click_spec_w :
    ((⟨[((0 : ℚ), (0 : ℚ)), (1, 0), (1, 1)], blankImg⟩ : PolyState).polyPoints.head? =
        some ((0 : ℚ), (0 : ℚ))) ∧
    (2 < (⟨[((0 : ℚ), (0 : ℚ)), (1, 0), (1, 1)], blankImg⟩ : PolyState).polyPoints.length ∧
      closesPolygon ((0 : ℚ), (0 : ℚ)) ((0 : ℚ), (0 : ℚ)) 1 = true) ∧
    polygonPointerDown (fun _ m => m) ⟨[((0 : ℚ), (0 : ℚ)), (1, 0), (1, 1)], blankImg⟩
        ((0 : ℚ), (0 : ℚ)) 1 =
      ⟨[], (fun (_ : List Point) (m : Img) => m)
        (⟨[((0 : ℚ), (0 : ℚ)), (1, 0), (1, 1)], blankImg⟩ : PolyState).polyPoints blankImg⟩ := by
  refine ⟨rfl, ⟨by decide, by norm_num [closesPolygon]⟩, ?_⟩
  exact ((polygon_click_spec (fun _ m => m)
      ⟨[((0 : ℚ), (0 : ℚ)), (1, 0), (1, 1)], blankImg⟩ ((0 : ℚ), (0 : ℚ)) 1).1
      ((0 : ℚ), (0 : ℚ)) rfl).1 ⟨by decide, by norm_num [closesPolygon]⟩

/-- C10: removing the active layer (with more than one layer present) sets
the active id to the id of the *first* element of the pre-removal
registry; in particular, when the active layer is itself the first layer,
the new active id is the just-removed id, which no longer occurs in the
post-removal registry. -/
theorem removeLayer_active_first (s : AppState) (lid : String)
    (hlen : 1 < s.layers.length) (hact : s.activeLayerId = lid) :
    ∀ l0 rest, s.layers = l0 :: rest →
      (removeLayer s lid).activeLayerId = l0.id ∧
      (l0.id = lid →
        (removeLayer s lid).activeLayerId ∉ (removeLayer s lid).layers.map Layer.id) := by
  intro l0 rest hl
  have hnotle : ¬ (l0 :: rest).length ≤ 1 := by
    rw [hl] at hlen
    omega
  have hred : removeLayer s lid =
      { s with
        past := s.past ++ [⟨s.layers, s.masks⟩]
        future := []
        layers := s.layers.filter fun l => l.id ≠ lid
        activeLayerId := if s.activeLayerId = lid then l0.id else s.activeLayerId } := by
    simp only [removeLayer, hl, if_neg hnotle, pushToHistory]
  rw [hred]
  constructor
  · simp [hact]
  · intro hfirst hmem
    simp only [List.mem_map, List.mem_filter] at hmem
    obtain ⟨l, ⟨_, hne⟩, hid⟩ := hmem
    rw [if_pos hact, hfirst] at hid
    simp only [ne_eq, decide_eq_true_eq] at hne
    exact hne hid

/-- C4: `undo` with non-empty past pops the most recent entry, pushes the
current live state onto the front of `future`, and restores the popped
state; `redo` is symmetric; in both, when the active id is absent from the
restored registry the active layer falls back to the restored registry's
first layer.  Consequently, a single stroke from a fresh state is undone
to the pre-stroke masks (all-transparent when the pre-stroke store was
empty) and redone back to the post-stroke state bit-for-bit. -/
theorem undo_redo_spec :
    (∀ (s : AppState) (prev : HistoryItem) (rest : List HistoryItem),
      s.past = rest ++ [prev] →
      handleUndo s = ⟨prev.layers, restoreActive prev.layers s.activeLayerId, rest,
        ⟨s.layers, s.masks⟩ :: s.future, prev.masks⟩) ∧
    (∀ (s : AppState) (next : HistoryItem) (rest : List HistoryItem),
      s.future = next :: rest →
      handleRedo s = ⟨next.layers, restoreActive next.layers s.activeLayerId,
        s.past ++ [⟨s.layers, s.masks⟩], rest, next.masks⟩) ∧
    (∀ (restored : List Layer) (act : String),
      ((∃ l ∈ restored, l.id = act) → restoreActive restored act = act) ∧
      (¬(∃ l ∈ restored, l.id = act) → ∀ l0 ls, restored = l0 :: ls → l0.id ≠ "" →
        restoreActive restored act = l0.id)) ∧
    (∀ (s0 : AppState) (m1 : MaskState),
      s0.past = [] → s0.future = [] → (∃ l ∈ s0.layers, l.id = s0.activeLayerId) →
      (handleUndo (handleSnapshot s0 m1)).masks = s0.masks ∧
      (handleUndo (handleSnapshot s0 m1)).layers = s0.layers ∧
      (s0.masks = (fun _ => none) →
        ∀ lid x y, restoredPixels (handleUndo (handleSnapshot s0 m1)).masks lid x y = clearPx) ∧
      handleRedo (handleUndo (handleSnapshot s0 m1)) = handleSnapshot s0 m1) := by
  have hfind : ∀ (restored : List Layer) (act : String),
      (∃ l ∈ restored, l.id = act) →
      (restored.find? fun l => l.id = act).isSome = true := by
    intro restored act ⟨l, hl, hid⟩
    rw [List.find?_isSome]
    exact ⟨l, hl, by simp [hid]⟩
  have hundo : ∀ (s : AppState) (prev : HistoryItem) (rest : List HistoryItem),
      s.past = rest ++ [prev] →
      handleUndo s = ⟨prev.layers, restoreActive prev.layers s.activeLayerId, rest,
        ⟨s.layers, s.masks⟩ :: s.future, prev.masks⟩ := by
    intro s prev rest hp
    simp only [handleUndo, hp, List.getLast?_concat, List.dropLast_concat]
  have hredo : ∀ (s : AppState) (next : HistoryItem) (rest : List HistoryItem),
      s.future = next :: rest →
      handleRedo s = ⟨next.layers, restoreActive next.layers s.activeLayerId,
        s.past ++ [⟨s.layers, s.masks⟩], rest, next.masks⟩ := by
    intro s next rest hf
    simp only [handleRedo, hf]
  have hkeep : ∀ (restored : List Layer) (act : String),
      (∃ l ∈ restored, l.id = act) → restoreActive restored act = act := by
    intro restored act hex
    simp only [restoreActive, hfind restored act hex, if_true]
  refine ⟨hundo, hredo, ?_, ?_⟩
  · intro restored act
    refine ⟨hkeep restored act, ?_⟩
    intro hnex l0 ls hl hne
    have hnone : (restored.find? fun l => l.id = act).isSome = false := by
      by_contra hcontra
      simp only [Bool.not_eq_false, List.find?_isSome] at hcontra
      obtain ⟨l, hl', hp⟩ := hcontra
      exact hnex ⟨l, hl', by simpa using hp⟩
    rw [hl] at hnone
    rw [hl]
    simp only [restoreActive, hnone, Bool.false_eq_true, if_false,
      List.head?_cons, if_neg hne]
  · intro s0 m1 hp hf hex
    have hs1 : handleSnapshot s0 m1 =
        ⟨s0.layers, s0.activeLayerId, [⟨s0.layers, s0.masks⟩], [], m1⟩ := by
      simp only [handleSnapshot, pushToHistory, hp, List.nil_append]
    have hu : handleUndo (handleSnapshot s0 m1) =
        ⟨s0.layers, s0.activeLayerId, [], [⟨s0.layers, m1⟩], s0.masks⟩ := by
      rw [hs1]
      rw [hundo ⟨s0.layers, s0.activeLayerId, [⟨s0.layers, s0.masks⟩], [], m1⟩
        ⟨s0.layers, s0.masks⟩ [] rfl]
      simp only [hkeep s0.layers s0.activeLayerId hex]
    refine ⟨by rw [hu], by rw [hu], ?_, ?_⟩
    · intro hms lid x y
      rw [hu]
      simp only [hms, restoredPixels]
      rfl
    · rw [hu, hredo ⟨s0.layers, s0.activeLayerId, [], [⟨s0.layers, m1⟩], s0.masks⟩
        ⟨s0.layers, m1⟩ [] rfl]
      rw [hs1]
      simp only [List.nil_append, hkeep s0.layers s0.activeLayerId hex]

/-- C5: each invalid input — out-of-bounds flood-fill seed, polygon commit
with fewer than 3 vertices (its vertex list is discarded), `undo` with
empty past, `redo` with empty future, and layer removal with a single
remaining layer — is a silent no-op leaving the Layer Registry and every
mask unchanged. -/
theorem invalid_input_noops :
    (∀ (w h : Nat) (src0 : Option Img) (t : Nat) (sx sy : ℚ) (mask : Img),
      (Int.floor sx < 0 ∨ (w : Int) ≤ Int.floor sx ∨ Int.floor sy < 0 ∨
        (h : Int) ≤ Int.floor sy) →
      performFloodFill w h src0 t sx sy mask = mask) ∧
    (∀ (fillPoly : List Point → Img → Img) (st : PolyState),
      st.polyPoints.length < 3 →
      commitPolygonFn fillPoly st = ⟨[], st.mask⟩) ∧
    (∀ s : AppState, s.past = [] → handleUndo s = s) ∧
    (∀ s : AppState, s.future = [] → handleRedo s = s) ∧
    (∀ (s : AppState) (lid : String), s.layers.length ≤ 1 → removeLayer s lid = s) := by
  refine ⟨?_, ?_, ?_, ?_, ?_⟩
  · intro w h src0 t sx sy mask hb
    rcases src0 with _ | src
    · rfl
    · simp only [performFloodFill, dif_pos hb]
  · intro fillPoly st hlt
    simp only [commitPolygonFn, if_pos hlt]
  · intro s hp
    simp only [handleUndo, hp, List.getLast?_nil]
  · intro s hf
    simp only [handleRedo, hf]
  · intro s lid hlen
    rcases hl : s.layers with _ | ⟨l0, rest⟩
    · simp only [removeLayer, hl]
    · rw [hl] at hlen
      simp only [removeLayer, hl, if_pos hlen]

/-- C6: every mutating action — stroke/polygon/flood-fill snapshot, layer
add, rename/recolor, remove (when allowed), visibility toggle, and
AI-label layer generation — leaves the redo stack empty and appends
exactly the pre-action state (registry + masks) to the past stack. -/
theorem mutating_actions_history :
    (∀ (s : AppState) (m1 : MaskState),
      (handleSnapshot s m1).future = [] ∧
      (handleSnapshot s m1).past = s.past ++ [⟨s.layers, s.masks⟩]) ∧
    (∀ (s : AppState) (newId nm : String),
      (addLayer s newId nm).future = [] ∧
      (addLayer s newId nm).past = s.past ++ [⟨s.layers, s.masks⟩]) ∧
    (∀ (s : AppState) (lid : String) (nm : Option String) (nc : Option RGBA),
      (updateLayer s lid nm nc).future = [] ∧
      (updateLayer s lid nm nc).past = s.past ++ [⟨s.layers, s.masks⟩]) ∧
    (∀ (s : AppState) (lid : String), 1 < s.layers.length →
      (removeLayer s lid).future = [] ∧
      (removeLayer s lid).past = s.past ++ [⟨s.layers, s.masks⟩]) ∧
    (∀ (s : AppState) (lid : String),
      (toggleVisibility s lid).future = [] ∧
      (toggleVisibility s lid).past = s.past ++ [⟨s.layers, s.masks⟩]) ∧
    (∀ (s : AppState) (labels : List String) (now : Nat),
      (runAIDetection s labels now).future = [] ∧
      (runAIDetection s labels now).past = s.past ++ [⟨s.layers, s.masks⟩]) := by
  refine ⟨fun s m1 => ⟨rfl, rfl⟩, fun s newId nm => ⟨rfl, rfl⟩,
    fun s lid nm nc => ⟨rfl, rfl⟩, ?_, fun s lid => ⟨rfl, rfl⟩, ?_⟩
  · intro s lid hlen
    rcases hl : s.layers with _ | ⟨l0, rest⟩
    · rw [hl] at hlen
      simp at hlen
    · have hnotle : ¬ (l0 :: rest).length ≤ 1 := by
        rw [hl] at hlen
        omega
      constructor
      · simp only [removeLayer, hl, if_neg hnotle, pushToHistory]
      · simp only [removeLayer, hl, if_neg hnotle, pushToHistory]
  · intro s labels now
    rcases labels with _ | ⟨lab, labs⟩
    · exact ⟨rfl, rfl⟩
    · constructor
      · simp only [runAIDetection, List.isEmpty_cons, if_false, pushToHistory]
        rcases s.layers with _ | ⟨l0, ls⟩
        · rfl
        · rcases ls with _ | _ <;> [skip; rfl]
          by_cases hid : l0.id = "fg" <;> simp [hid]
      · simp only [runAIDetection, List.isEmpty_cons, if_false, pushToHistory]
        rcases s.layers with _ | ⟨l0, ls⟩
        · rfl
        · rcases ls with _ | _ <;> [skip; rfl]
          by_cases hid : l0.id = "fg" <;> simp [hid]

/-- The empty serialized mask store of a fresh session. -/
def emptyMS : MaskState := fun _ => none

/-- Fresh-session App state: single `"fg"` layer, empty history. -/
def s0C : AppState := ⟨[fgLayer], "fg", [], [], emptyMS⟩

/-- App state with two layers. -/
def s2C : AppState := ⟨[fgLayer, aLayer], "fg", [], [], emptyMS⟩

/-- Post-stroke serialized masks: the stroke filled the `"fg"` mask. -/
def m1C : MaskState := fun lid => if lid = "fg" then some fullMask else none

/-- A constant opaque source image for flood-fill witnesses. -/
def srcC : Img := fun _ _ => ⟨5, 5, 5, 255⟩

/-- Witness for C2 at a concrete 2×2 fill. -/
theorem floodFill_component_spec_w :
    (0 ≤ Int.floor (0 : ℚ) ∧
      (((0 : Fin 2), (0 : Fin 2)) : Pos 2 2).1.val = (Int.floor (0 : ℚ)).toNat) ∧
    (matchesAt srcC
        (srcC (((0 : Fin 2), (0 : Fin 2)) : Pos 2 2).1.val
          (((0 : Fin 2), (0 : Fin 2)) : Pos 2 2).2.val) 0
        (((0 : Fin 2), (0 : Fin 2)) : Pos 2 2) = true) ∧
    ((ReachP (matchesAt (w := 2) (h := 2) srcC
          (srcC (((0 : Fin 2), (0 : Fin 2)) : Pos 2 2).1.val
            (((0 : Fin 2), (0 : Fin 2)) : Pos 2 2).2.val) 0)
        ((0 : Fin 2), (0 : Fin 2)) ((1 : Fin 2), (0 : Fin 2)) →
      performFloodFill 2 2 (some srcC) 0 0 0 blankImg
        (((1 : Fin 2), (0 : Fin 2)) : Pos 2 2).1.val
        (((1 : Fin 2), (0 : Fin 2)) : Pos 2 2).2.val = whitePx) ∧
     (¬ ReachP (matchesAt (w := 2) (h := 2) srcC
          (srcC (((0 : Fin 2), (0 : Fin 2)) : Pos 2 2).1.val
            (((0 : Fin 2), (0 : Fin 2)) : Pos 2 2).2.val) 0)
        ((0 : Fin 2), (0 : Fin 2)) ((1 : Fin 2), (0 : Fin 2)) →
      performFloodFill 2 2 (some srcC) 0 0 0 blankImg
        (((1 : Fin 2), (0 : Fin 2)) : Pos 2 2).1.val
        (((1 : Fin 2), (0 : Fin 2)) : Pos 2 2).2.val =
        blankImg (((1 : Fin 2), (0 : Fin 2)) : Pos 2 2).1.val
          (((1 : Fin 2), (0 : Fin 2)) : Pos 2 2).2.val)) := by
  have hc := (floodFill_component_spec 2 2 srcC 0 0 0 blankImg).1
    ((0 : Fin 2), (0 : Fin 2)) (by decide) (by decide) (by decide) (by decide)
  exact ⟨⟨by decide, by decide⟩, hc.1, hc.2 ((1 : Fin 2), (0 : Fin 2))⟩

/-- Witness for C4: one stroke from the fresh session, undone and redone. -/
theorem undo_redo_spec_w :
    (s0C.past = [] ∧ s0C.future = [] ∧ ∃ l ∈ s0C.layers, l.id = s0C.activeLayerId) ∧
    ((handleUndo (handleSnapshot s0C m1C)).masks = s0C.masks ∧
     (handleUndo (handleSnapshot s0C m1C)).layers = s0C.layers ∧
     (s0C.masks = (fun _ => none) →
        ∀ lid x y, restoredPixels (handleUndo (handleSnapshot s0C m1C)).masks lid x y =
          clearPx) ∧
     handleRedo (handleUndo (handleSnapshot s0C m1C)) = handleSnapshot s0C m1C) :=
  ⟨⟨rfl, rfl, by decide⟩, undo_redo_spec.2.2.2 s0C m1C rfl rfl (by decide)⟩

/-- Witness for C5: all five invalid inputs at concrete states. -/
theorem invalid_input_noops_w :
    ((Int.floor (-1 : ℚ) < 0 ∨ (2 : Int) ≤ Int.floor (-1 : ℚ) ∨
        Int.floor (0 : ℚ) < 0 ∨ (2 : Int) ≤ Int.floor (0 : ℚ)) ∧
      performFloodFill 2 2 (some srcC) 0 (-1) 0 blankImg = blankImg) ∧
    ((⟨[((0 : ℚ), (0 : ℚ))], blankImg⟩ : PolyState).polyPoints.length < 3 ∧
      commitPolygonFn (fun _ m => m) ⟨[((0 : ℚ), (0 : ℚ))], blankImg⟩ = ⟨[], blankImg⟩) ∧
    (s0C.past = [] ∧ handleUndo s0C = s0C) ∧
    (s0C.future = [] ∧ handleRedo s0C = s0C) ∧
    (s0C.layers.length ≤ 1 ∧ removeLayer s0C "fg" = s0C) := by
  have hfloor : Int.floor (-1 : ℚ) < 0 ∨ (2 : Int) ≤ Int.floor (-1 : ℚ) ∨
      Int.floor (0 : ℚ) < 0 ∨ (2 : Int) ≤ Int.floor (0 : ℚ) := by
    left
    norm_num
  refine ⟨⟨hfloor, invalid_input_noops.1 2 2 (some srcC) 0 (-1) 0 blankImg hfloor⟩,
    ⟨by decide, invalid_input_noops.2.1 (fun _ m => m) ⟨[((0 : ℚ), (0 : ℚ))], blankImg⟩
      (by decide)⟩,
    ⟨rfl, invalid_input_noops.2.2.1 s0C rfl⟩,
    ⟨rfl, invalid_input_noops.2.2.2.1 s0C rfl⟩,
    ⟨by decide, invalid_input_noops.2.2.2.2 s0C "fg" (by decide)⟩⟩

/-- Witness for C6 at the guarded action (layer removal with 2 layers). -/
theorem mutating_actions_history_w :
    1 < s2C.layers.length ∧
    ((removeLayer s2C "a").future = [] ∧
      (removeLayer s2C "a").past = s2C.past ++ [⟨s2C.layers, s2C.masks⟩]) :=
  ⟨by decide, mutating_actions_history.2.2.2.1 s2C "a" (by decide)⟩

/-- Witness for C10: removing the active first layer of a two-layer
registry leaves the removed id active. -/
theorem removeLayer_active_first_w :
    (1 < s2C.layers.length ∧ s2C.activeLayerId = "fg" ∧ s2C.layers = fgLayer :: [aLayer]) ∧
    ((removeLayer s2C "fg").activeLayerId = fgLayer.id ∧
      (fgLayer.id = "fg" →
        (removeLayer s2C "fg").activeLayerId ∉ (removeLayer s2C "fg").layers.map Layer.id)) :=
  ⟨⟨by decide, rfl, rfl⟩,
    removeLayer_active_first s2C "fg" (by decide) rfl fgLayer [aLayer] rfl⟩

/-- C8: flood fill is idempotent — the written component depends only on
the source image, seed and tolerance (never on current mask content), and
writing opaque white twice equals writing it once. -/
theorem floodFill_idempotent (w h : Nat) (src0 : Option Img) (t : Nat)
    (sx sy : ℚ) (mask : Img) :
    performFloodFill w h src0 t sx sy (performFloodFill w h src0 t sx sy mask) =
      performFloodFill w h src0 t sx sy mask := by
  rcases src0 with _ | src
  · rfl
  · by_cases hb : Int.floor sx < 0 ∨ (w : Int) ≤ Int.floor sx ∨ Int.floor sy < 0 ∨
        (h : Int) ≤ Int.floor sy
    · simp only [performFloodFill, dif_pos hb]
    · simp only [performFloodFill, dif_neg hb]
      funext x y
      by_cases hxy : x < w ∧ y < h
      · simp only [dif_pos hxy]
        split
        · rfl
        · rfl
      · simp only [dif_neg hxy]

/-- Whether any pair in the enumerated layer list is visible and covers
`(x, y)`. -/
def anyCover (masks : MaskMap) (x y : Nat) (pairs : List (Nat × Layer)) : Bool :=
  pairs.any fun p => p.2.isVisible && coversAt masks p.2.id x y

theorem lastLabelAux_of_not_cover (masks : MaskMap) (x y : Nat) :
    ∀ (pairs : List (Nat × Layer)) (a : Nat),
      anyCover masks x y pairs = false → lastLabelAux masks x y pairs a = a := by
  intro pairs
  induction pairs with
  | nil => intro a _; rfl
  | cons q rest ih =>
    intro a hany
    simp only [anyCover, List.any_cons, Bool.or_eq_false_iff] at hany
    show lastLabelAux masks x y rest
      (if q.2.isVisible && coversAt masks q.2.id x y then q.1 + 1 else a) = a
    rw [if_neg (by simp [hany.1]), ih a hany.2]

theorem lastLabelAux_seed_irrel (masks : MaskMap) (x y : Nat) :
    ∀ (pairs : List (Nat × Layer)) (a b : Nat),
      anyCover masks x y pairs = true → lastLabelAux masks x y pairs a =
        lastLabelAux masks x y pairs b := by
  intro pairs
  induction pairs with
  | nil => intro a b hany; simp [anyCover] at hany
  | cons q rest ih =>
    intro a b hany
    show lastLabelAux masks x y rest
        (if q.2.isVisible && coversAt masks q.2.id x y then q.1 + 1 else a) =
      lastLabelAux masks x y rest
        (if q.2.isVisible && coversAt masks q.2.id x y then q.1 + 1 else b)
    by_cases hq : (q.2.isVisible && coversAt masks q.2.id x y) = true
    · rw [if_pos hq, if_pos hq]
    · rw [if_neg hq, if_neg hq]
      simp only [anyCover, List.any_cons, Bool.or_eq_true_iff] at hany
      rcases hany with hany | hany
      · exact absurd hany hq
      · exact ih a b hany

theorem lastLabelAux_pos (masks : MaskMap) (x y : Nat) :
    ∀ (pairs : List (Nat × Layer)) (a : Nat),
      anyCover masks x y pairs = true → 0 < lastLabelAux masks x y pairs a := by
  intro pairs
  induction pairs with
  | nil => intro a hany; simp [anyCover] at hany
  | cons q rest ih =>
    intro a hany
    show 0 < lastLabelAux masks x y rest
        (if q.2.isVisible && coversAt masks q.2.id x y then q.1 + 1 else a)
    by_cases hq : (q.2.isVisible && coversAt masks q.2.id x y) = true
    · rw [if_pos hq]
      by_cases hrest : anyCover masks x y rest = true
      · exact ih _ hrest
      · rw [lastLabelAux_of_not_cover masks x y rest _
          (Bool.not_eq_true _ ▸ Bool.of_not_eq_true hrest)]
        omega
    · rw [if_neg hq]
      simp only [anyCover, List.any_cons, Bool.or_eq_true_iff] at hany
      rcases hany with hany | hany
      · exact absurd hany hq
      · exact ih a hany

theorem paintStep_not_cover (masks : MaskMap) (acc : Img) (q : Nat × Layer)
    (x y : Nat) (hq : (q.2.isVisible && coversAt masks q.2.id x y) = false) :
    paintStep masks acc q x y = acc x y := by
  simp only [Bool.and_eq_false_iff] at hq
  rcases hq with hq | hq
  · simp [paintStep, hq]
  · rcases hm : masks q.2.id with _ | m
    · rcases hv : q.2.isVisible
      · simp [paintStep, hv]
      · simp [paintStep, hv, hm]
    · rcases hv : q.2.isVisible
      · simp [paintStep, hv]
      · have ha : (m x y).a = 0 := by
          rw [coversAt, hm] at hq
          simpa using hq
        simp [paintStep, hv, hm, tint, ha, over, clearPx]

theorem paintStep_cover (masks : MaskMap) (acc : Img) (q : Nat × Layer)
    (x y : Nat) (hq : (q.2.isVisible && coversAt masks q.2.id x y) = true)
    (hbin : ∀ lid m, masks lid = some m → ∀ x y, binAlpha (m x y)) :
    paintStep masks acc q x y = ⟨q.1 + 1, q.1 + 1, q.1 + 1, 255⟩ := by
  simp only [Bool.and_eq_true] at hq
  rcases hm : masks q.2.id with _ | m
  · rw [coversAt, hm] at hq
    simp at hq
  · have ha : (m x y).a ≠ 0 := by
      have := hq.2
      rw [coversAt, hm] at this
      simpa using this
    have h255 : (m x y).a = 255 := (hbin q.2.id m hm x y).resolve_left ha
    simp [paintStep, hq.1, hm, tint, ha, over, h255]

/-- Pixel value of the `training_mask` paint loop over an arbitrary
enumerated layer list and accumulator canvas. -/
theorem paintFold_pixel (masks : MaskMap)
    (hbin : ∀ lid m, masks lid = some m → ∀ x y, binAlpha (m x y)) (x y : Nat) :
    ∀ (pairs : List (Nat × Layer)) (acc : Img),
      pairs.foldl (paintStep masks) acc x y =
        if anyCover masks x y pairs = true
        then ⟨lastLabelAux masks x y pairs 0, lastLabelAux masks x y pairs 0,
              lastLabelAux masks x y pairs 0, 255⟩
        else acc x y := by
  intro pairs
  induction pairs with
  | nil => intro acc; simp [anyCover, lastLabelAux]
  | cons q rest ih =>
    intro acc
    rw [List.foldl_cons, ih (paintStep masks acc q)]
    have hlab : lastLabelAux masks x y (q :: rest) 0 = lastLabelAux masks x y rest
        (if q.2.isVisible && coversAt masks q.2.id x y then q.1 + 1 else 0) := rfl
    by_cases hq : (q.2.isVisible && coversAt masks q.2.id x y) = true
    · have hc : anyCover masks x y (q :: rest) = true := by
        simp only [anyCover, List.any_cons, Bool.or_eq_true_iff]
        exact Or.inl hq
      rw [if_pos hc]
      by_cases hrest : anyCover masks x y rest = true
      · rw [if_pos hrest, hlab, if_pos hq,
          lastLabelAux_seed_irrel masks x y rest (q.1 + 1) 0 hrest]
      · have hrest' : anyCover masks x y rest = false := by
          rcases hb : anyCover masks x y rest
          · rfl
          · exact absurd hb hrest
        rw [if_neg hrest, hlab, if_pos hq,
          lastLabelAux_of_not_cover masks x y rest (q.1 + 1) hrest',
          paintStep_cover masks acc q x y hq hbin]
    · have hq' : (q.2.isVisible && coversAt masks q.2.id x y) = false := by
        rcases hb : (q.2.isVisible && coversAt masks q.2.id x y)
        · rfl
        · exact absurd hb hq
      have hc : anyCover masks x y (q :: rest) = anyCover masks x y rest := by
        simp [anyCover, List.any_cons, hq']
      rw [hc, hlab, if_neg hq]
      by_cases hrest : anyCover masks x y rest = true
      · rw [if_pos hrest, if_pos hrest]
      · rw [if_neg hrest, if_neg hrest, paintStep_not_cover masks acc q x y hq']

/-- C3: the `training_mask` export is black (label 0) where the source is
transparent or no visible layer covers; elsewhere it carries
`rgb(id,id,id)` for the 1-based registry index `id` of the last visible
covering layer (later layers overwrite earlier ones) — and it is opaque
everywhere.  In particular, for a registry `[l1, l2]` with both layers
visible and `l2`'s mask inside `l1`'s, the output is label 2 on `l2`'s
coverage, label 1 on the rest of `l1`'s coverage, black elsewhere. -/
theorem trainingMask_spec (layers : List Layer) (masks : MaskMap) (img : Img)
    (hbin : ∀ lid m, masks lid = some m → ∀ x y, binAlpha (m x y))
    (_himg : ∀ x y, binAlpha (img x y)) :
    (∀ x y, exportTrainingMask layers masks img x y =
      if (img x y).a = 0 then blackPx
      else if trainLabel layers masks x y = 0 then blackPx
      else ⟨trainLabel layers masks x y, trainLabel layers masks x y,
            trainLabel layers masks x y, 255⟩) ∧
    (∀ x y, (exportTrainingMask layers masks img x y).a = 255) ∧
    (∀ (l1 l2 : Layer) (m1 m2 : Img),
      layers = [l1, l2] → l1.isVisible = true → l2.isVisible = true →
      masks l1.id = some m1 → masks l2.id = some m2 →
      (∀ x y, (m2 x y).a ≠ 0 → (m1 x y).a ≠ 0) →
      ∀ x y, exportTrainingMask layers masks img x y =
        if (img x y).a = 0 then blackPx
        else if (m2 x y).a ≠ 0 then ⟨2, 2, 2, 255⟩
        else if (m1 x y).a ≠ 0 then ⟨1, 1, 1, 255⟩
        else blackPx) := by
  have hmain : ∀ x y, exportTrainingMask layers masks img x y =
      if (img x y).a = 0 then blackPx
      else if trainLabel layers masks x y = 0 then blackPx
      else ⟨trainLabel layers masks x y, trainLabel layers masks x y,
            trainLabel layers masks x y, 255⟩ := by
    intro x y
    have hpaint := paintFold_pixel masks hbin x y layers.enum (fun _ _ => blackPx)
    show over (destIn (img x y) (layers.enum.foldl (paintStep masks) (fun _ _ => blackPx) x y))
        blackPx = _
    rw [hpaint]
    by_cases himg0 : (img x y).a = 0
    · rw [if_pos himg0]
      by_cases hany : anyCover masks x y layers.enum = true
      · rw [if_pos hany]
        simp [destIn, over, himg0, blackPx, clearPx]
      · rw [if_neg hany]
        simp [destIn, over, himg0, blackPx, clearPx]
    · rw [if_neg himg0]
      by_cases hany : anyCover masks x y layers.enum = true
      · rw [if_pos hany]
        have hpos := lastLabelAux_pos masks x y layers.enum 0 hany
        rw [if_neg (by rw [trainLabel]; omega)]
        simp only [destIn, if_neg himg0, over, trainLabel]
        norm_num
      · rw [if_neg hany]
        have hzero : trainLabel layers masks x y = 0 :=
          lastLabelAux_of_not_cover masks x y layers.enum 0
            (by rcases hb : anyCover masks x y layers.enum
                · rfl
                · exact absurd hb hany)
        rw [if_pos hzero]
        simp [destIn, over, himg0, blackPx, clearPx]
  refine ⟨hmain, ?_, ?_⟩
  · intro x y
    rw [hmain x y]
    by_cases h1 : (img x y).a = 0
    · simp [h1, blackPx]
    · by_cases h2 : trainLabel layers masks x y = 0 <;> simp [h1, h2, blackPx]
  · intro l1 l2 m1 m2 hl hv1 hv2 hm1 hm2 _hsub x y
    rw [hmain x y]
    subst hl
    have henum : ([l1, l2] : List Layer).enum = [(0, l1), (1, l2)] := rfl
    have hlab : trainLabel [l1, l2] masks x y =
        if (m2 x y).a ≠ 0 then 2 else if (m1 x y).a ≠ 0 then 1 else 0 := by
      rw [trainLabel, henum]
      show lastLabelAux masks x y [(1, l2)]
          (if (0, l1).2.isVisible && coversAt masks (0, l1).2.id x y then 1 else 0) = _
      show (if (1, l2).2.isVisible && coversAt masks (1, l2).2.id x y then 2 else
          (if (0, l1).2.isVisible && coversAt masks (0, l1).2.id x y then 1 else 0)) = _
      simp only [hv1, hv2, coversAt, hm1, hm2, Bool.true_and]
      by_cases h2 : (m2 x y).a = 0
      · by_cases h1 : (m1 x y).a = 0 <;> simp [h1, h2]
      · by_cases h1 : (m1 x y).a = 0 <;> simp [h1, h2]
    rw [hlab]
    by_cases hi : (img x y).a = 0
    · simp [hi]
    · by_cases h2 : (m2 x y).a = 0
      · by_cases h1 : (m1 x y).a = 0 <;> simp [hi, h1, h2]
      · by_cases h1 : (m1 x y).a = 0 <;> simp [hi, h1, h2]

/-- Pixel alpha of the union-mask fold: binary, and nonzero exactly when
some visible layer's mask covers the pixel (or the accumulator already
did). -/
theorem unionFold_pixel (masks : MaskMap)
    (hbin : ∀ lid m, masks lid = some m → ∀ x y, binAlpha (m x y)) (x y : Nat) :
    ∀ (layers : List Layer) (acc : Img), binAlpha (acc x y) →
      binAlpha ((layers.foldl (unionStep masks) acc) x y) ∧
      (((layers.foldl (unionStep masks) acc) x y).a ≠ 0 ↔
        (coveredB layers masks x y = true ∨ (acc x y).a ≠ 0)) := by
  intro layers
  induction layers with
  | nil =>
    intro acc hacc
    exact ⟨hacc, by simp [coveredB]⟩
  | cons l rest ih =>
    intro acc hacc
    rw [List.foldl_cons]
    have hstep : binAlpha (unionStep masks acc l x y) ∧
        ((unionStep masks acc l x y).a ≠ 0 ↔
          ((l.isVisible && coversAt masks l.id x y) = true ∨ (acc x y).a ≠ 0)) := by
      by_cases hv : l.isVisible
      · rcases hm : masks l.id with _ | m
        · refine ⟨by simpa [unionStep, hv, hm] using hacc, ?_⟩
          simp [unionStep, hv, hm, coversAt]
        · by_cases ha : (m x y).a = 0
          · refine ⟨by simpa [unionStep, hv, hm, over, ha] using hacc, ?_⟩
            simp [unionStep, hv, hm, over, ha, coversAt]
          · have h255 : (m x y).a = 255 := (hbin l.id m hm x y).resolve_left ha
            refine ⟨by simp [unionStep, hv, hm, over, ha, binAlpha, h255], ?_⟩
            simp [unionStep, hv, hm, over, ha, coversAt, h255]
      · refine ⟨by simpa [unionStep, hv] using hacc, ?_⟩
        simp [unionStep, hv]
    obtain ⟨hb1, hb2⟩ := hstep
    obtain ⟨hc1, hc2⟩ := ih (unionStep masks acc l) hb1
    refine ⟨hc1, ?_⟩
    rw [hc2, hb2]
    simp only [coveredB, List.any_cons, Bool.or_eq_true_iff]
    tauto

/-- C7: the `white_bg` export takes a pixel from the source exactly where
the union of the visible layers' masks covers it and is opaque white
elsewhere; the `rgba` export is the same union-masked source, fully
transparent elsewhere.  For a fully opaque source and one visible layer
whose mask covers everything, both exports equal the source exactly. -/
theorem export_union_spec (layers : List Layer) (masks : MaskMap) (img : Img)
    (hbin : ∀ lid m, masks lid = some m → ∀ x y, binAlpha (m x y))
    (himg : ∀ x y, (img x y).a = 255) :
    (∀ x y, exportWhiteBg layers masks img x y =
      if coveredB layers masks x y = true then img x y else whitePx) ∧
    (∀ x y, exportRgba layers masks img x y =
      if coveredB layers masks x y = true then img x y else clearPx) ∧
    (∀ (l : Layer) (m : Img), layers = [l] → l.isVisible = true →
      masks l.id = some m → (∀ x y, (m x y).a = 255) →
      ∀ x y, exportRgba layers masks img x y = img x y ∧
        exportWhiteBg layers masks img x y = img x y) := by
  have hcomp : ∀ x y, ((getCompositeMask layers masks) x y).a ≠ 0 ↔
      coveredB layers masks x y = true := by
    intro x y
    have hiff := (unionFold_pixel masks hbin x y layers blankImg (Or.inl rfl)).2
    rw [getCompositeMask, hiff]
    simp [blankImg, clearPx]
  have hwb : ∀ x y, exportWhiteBg layers masks img x y =
      if coveredB layers masks x y = true then img x y else whitePx := by
    intro x y
    show over (destIn (getCompositeMask layers masks x y) (img x y)) whitePx = _
    by_cases hc : coveredB layers masks x y = true
    · rw [if_pos hc, destIn, if_neg ((hcomp x y).2 hc), over,
        if_neg (by rw [himg x y]; omega)]
    · have h0 : (getCompositeMask layers masks x y).a = 0 := by
        by_contra hno
        exact hc ((hcomp x y).1 hno)
      rw [if_neg hc, destIn, if_pos h0, over]
      simp [clearPx]
  have hrgba : ∀ x y, exportRgba layers masks img x y =
      if coveredB layers masks x y = true then img x y else clearPx := by
    intro x y
    show destIn (getCompositeMask layers masks x y) (img x y) = _
    by_cases hc : coveredB layers masks x y = true
    · rw [if_pos hc, destIn, if_neg ((hcomp x y).2 hc)]
    · have h0 : (getCompositeMask layers masks x y).a = 0 := by
        by_contra hno
        exact hc ((hcomp x y).1 hno)
      rw [if_neg hc, destIn, if_pos h0]
  refine ⟨hwb, hrgba, ?_⟩
  intro l m hl hv hm hfull x y
  have hcov : coveredB layers masks x y = true := by
    subst hl
    simp [coveredB, hv, coversAt, hm, hfull x y]
  exact ⟨by rw [hrgba x y, if_pos hcov], by rw [hwb x y, if_pos hcov]⟩

/-- Every mask in the two-entry fixture store is binary. -/
theorem masksC1_bin : ∀ lid m, masksC1 lid = some m → ∀ x y, binAlpha (m x y) := by
  intro lid m hm x y
  by_cases h1 : lid = "a"
  · simp only [masksC1, if_pos h1] at hm
    rw [← Option.some.inj hm]
    exact Or.inr rfl
  · by_cases h2 : lid = "fg"
    · simp only [masksC1, if_neg h1, if_pos h2] at hm
      rw [← Option.some.inj hm]
      exact Or.inl rfl
    · simp [masksC1, h1, h2] at hm

/-- Witness for C3 at a concrete binary state and pixel. -/
theorem trainingMask_spec_w :
    ((∀ lid m, masksC1 lid = some m → ∀ x y, binAlpha (m x y)) ∧
      (∀ x y, binAlpha (imgC x y))) ∧
    exportTrainingMask [aLayer] masksC1 imgC 0 0 =
      (if (imgC 0 0).a = 0 then blackPx
       else if trainLabel [aLayer] masksC1 0 0 = 0 then blackPx
       else ⟨trainLabel [aLayer] masksC1 0 0, trainLabel [aLayer] masksC1 0 0,
             trainLabel [aLayer] masksC1 0 0, 255⟩) :=
  ⟨⟨masksC1_bin, fun _ _ => Or.inr rfl⟩,
    (trainingMask_spec [aLayer] masksC1 imgC masksC1_bin (fun _ _ => Or.inr rfl)).1 0 0⟩

/-- Witness for C7: round trip with a full mask on a fully opaque source. -/
theorem export_union_spec_w :
    ((∀ lid m, masksC1 lid = some m → ∀ x y, binAlpha (m x y)) ∧
      (∀ x y, (imgC x y).a = 255) ∧ aLayer.isVisible = true ∧
      masksC1 aLayer.id = some fullMask ∧ (∀ x y, (fullMask x y).a = 255)) ∧
    (exportRgba [aLayer] masksC1 imgC 0 0 = imgC 0 0 ∧
      exportWhiteBg [aLayer] masksC1 imgC 0 0 = imgC 0 0) :=
  ⟨⟨masksC1_bin, fun _ _ => rfl, rfl, rfl, fun _ _ => rfl⟩,
    (export_union_spec [aLayer] masksC1 imgC masksC1_bin (fun _ _ => rfl)).2.2
      aLayer fullMask rfl rfl rfl (fun _ _ => rfl) 0 0⟩

/-- Evaluation rule for `rne` when the fraction rounds down. -/
theorem rne_eq_down (q : ℚ) (n : ℤ) (h1 : ⌊q⌋ = n) (h2 : q - n < 1 / 2) :
    rne q = n := by
  rw [rne, h1, if_pos h2]

/-- Evaluation rule for `roundDouble` when the scaled significand rounds
down. -/
theorem roundDouble_eval (q : ℚ) (hq : ¬ q = 0) (e : Nat) (he : exp2Of q = e)
    (n : ℤ) (h1 : ⌊q * 2 ^ (52 - e)⌋ = n) (h2 : q * 2 ^ (52 - e) - n < 1 / 2) :
    roundDouble q = n / 2 ^ (52 - e) := by
  rw [roundDouble, if_neg hq, he, rne_eq_down _ n h1 h2]

/-- The binary64 value of the literal `2.55`, evaluated. -/
theorem fl255_eq : fl255 = 5742089524897382 / 2 ^ 51 := by
  rw [fl255, roundDouble_eval (51 / 20) (by norm_num) 1 (by rw [exp2Of]; norm_num)
    5742089524897382 (by rw [Int.floor_eq_iff]; norm_num) (by norm_num)]
  norm_num

/-- The binary64 product `100 * 2.55`, evaluated: strictly below 255. -/
theorem tolFloat_100_eq : tolFloat 100 = 8972014882652159 / 2 ^ 45 := by
  have harg : fl255 * ((100 : Nat) : ℚ) = 574208952489738200 / 2 ^ 51 := by
    rw [fl255_eq]
    norm_num
  rw [tolFloat, harg, roundDouble_eval (574208952489738200 / 2 ^ 51) (by norm_num) 7
    (by rw [exp2Of]; norm_num) 8972014882652159
    (by rw [Int.floor_eq_iff]; norm_num) (by norm_num)]
  norm_num

/-- The maximum-tolerance threshold the program computes is strictly below
the channel distance 255. -/
theorem tolFloat_100_lt : tolFloat 100 < 255 := by
  rw [tolFloat_100_eq]
  norm_num

/-- A 2×1 source image: black pixel at x = 0, white pixel at x = 1. -/
def srcBW : Img := fun x _ => if x = 0 then ⟨0, 0, 0, 255⟩ else ⟨255, 255, 255, 255⟩

/-- Every pixel the fill reaches is the seed or satisfies the match
predicate. -/
theorem reach_last_matches {w h : Nat} (P : Pos w h → Bool) (s q : Pos w h)
    (hr : ReachP P s q) : q = s ∨ P q = true := by
  cases hr with
  | refl => exact Or.inl rfl
  | step _ _ hP => exact Or.inr hP

/-- `performFloodFill` at an in-bounds pixel, for an in-bounds seed:
white where the fill component contains the pixel, unchanged elsewhere. -/
theorem performFloodFill_pixel (w h : Nat) (src : Img) (t : Nat) (sx sy : ℚ)
    (mask : Img) (seed : Pos w h)
    (hx : 0 ≤ Int.floor sx) (hy : 0 ≤ Int.floor sy)
    (h1 : seed.1.val = (Int.floor sx).toNat) (h2 : seed.2.val = (Int.floor sy).toNat)
    (p : Pos w h) :
    performFloodFill w h (some src) t sx sy mask p.1.val p.2.val =
      if p ∈ fillWritten (matchesAt src (src seed.1.val seed.2.val) t) seed
      then whitePx else mask p.1.val p.2.val := by
  have hxw : (Int.floor sx).toNat < w := h1 ▸ seed.1.isLt
  have hyh : (Int.floor sy).toNat < h := h2 ▸ seed.2.isLt
  have hb : ¬(Int.floor sx < 0 ∨ (w : Int) ≤ Int.floor sx ∨ Int.floor sy < 0 ∨
      (h : Int) ≤ Int.floor sy) := by omega
  simp only [performFloodFill, dif_neg hb]
  rw [dif_pos (⟨p.1.isLt, p.2.isLt⟩ : p.1.val < w ∧ p.2.val < h)]
  simp only [← h1, ← h2, Fin.eta, Prod.mk.eta]

/-- C2 counterexample: on the black/white 2×1 image with the tolerance
slider at its maximum (100), the claim's exact threshold `100 × 2.55 =
255` puts the white pixel `(1,0)` in the seed's component (channel
distance 255 ≤ 255), so the claim requires it to be written opaque white;
but the program compares against the binary64 product `254.99999…`, does
not match the white pixel, and leaves that mask pixel fully transparent. -/
theorem floodFill_tolerance_counterexample :
    ReachP (specMatchesAt (w := 2) (h := 1) srcBW (srcBW 0 0) 100)
      ((0 : Fin 2), (0 : Fin 1)) ((1 : Fin 2), (0 : Fin 1)) ∧
    performFloodFill 2 1 (some srcBW) 100 0 0 blankImg 1 0 ≠ whitePx := by
  constructor
  · exact ReachP.step ReachP.refl (Or.inr ⟨rfl, Or.inl rfl⟩) (by decide)
  · have hfalse : colorMatch ⟨255, 255, 255, 255⟩ ⟨0, 0, 0, 255⟩ 100 = false := by
      simp only [colorMatch, Bool.and_eq_false_iff, decide_eq_false_iff_not, not_le]
      left
      left
      have hd : Nat.dist 255 0 = 255 := by decide
      rw [hd]
      exact_mod_cast tolFloat_100_lt
    have hnm : ¬ (((1 : Fin 2), (0 : Fin 1)) : Pos 2 1) ∈
        fillWritten (matchesAt srcBW
          (srcBW (((0 : Fin 2), (0 : Fin 1)) : Pos 2 1).1.val
            (((0 : Fin 2), (0 : Fin 1)) : Pos 2 1).2.val) 100)
          ((0 : Fin 2), (0 : Fin 1)) := by
      intro hmem
      rcases reach_last_matches _ _ _ ((mem_fillWritten _ _ _).1 hmem) with heq | hP
      · exact absurd heq (by decide)
      · have hPeq : matchesAt (w := 2) (h := 1) srcBW
            (srcBW (((0 : Fin 2), (0 : Fin 1)) : Pos 2 1).1.val
              (((0 : Fin 2), (0 : Fin 1)) : Pos 2 1).2.val) 100
            ((1 : Fin 2), (0 : Fin 1)) =
            colorMatch ⟨255, 255, 255, 255⟩ ⟨0, 0, 0, 255⟩ 100 := rfl
        rw [hPeq, hfalse] at hP
        exact absurd hP (by decide)
    show performFloodFill 2 1 (some srcBW) 100 0 0 blankImg
        (((1 : Fin 2), (0 : Fin 1)) : Pos 2 1).1.val
        (((1 : Fin 2), (0 : Fin 1)) : Pos 2 1).2.val ≠ whitePx
    rw [performFloodFill_pixel 2 1 srcBW 100 0 0 blankImg ((0 : Fin 2), (0 : Fin 1))
      (by decide) (by decide) (by decide) (by decide) ((1 : Fin 2), (0 : Fin 1))]
    rw [if_neg hnm]
    decide
